import Mathlib

/-!
# Verification of `build_safari/utils/terminal.py`

Shallow embedding of the terminal-output interpreter:

* `ANSI_TO_RICH` / `tableLookup` — the SGR code table (Python dict).
* `parse_sgr` — Python `_parse_sgr`: SGR parameter list to Rich markup.
* `escChar` / `escape_rich_markup` — Python `_escape_rich_markup`.
* `matchAfterEsc` / `scanToks` — the `ANSI_ALL_PATTERN` regex scanner
  (`re.finditer` over the alternation of CSI / OSC / DCS-class / Fe).
* `ansi_to_rich` — the conversion driver.
* `processChars` / `OutputProcessor` — the stateful line assembler
  (`OutputProcessor.process` / `flush` / `reset`).

Strings are modelled as `List Char` internally (`String.data`), integers
as `Nat`/`Int`.  Python's `int(...)` conversion is modelled by `pyInt`
(ASCII whitespace stripping, optional sign, digits with single
underscores between digit groups), returning `Option Int`: `none`
corresponds to `ValueError`.
-/

/-- Character class `[0-9;:]` of the CSI parameter field
(`ANSI_ALL_PATTERN` / `ANSI_CSI_PATTERN`).  Codes are ASCII:
digits 48–57, `;` = 59, `:` = 58. -/
def isParamChar (c : Char) : Bool :=
  (48 ≤ c.toNat && c.toNat ≤ 57) || c.toNat = 59 || c.toNat = 58

/-- Regex class `[A-Za-z]` (the CSI command letter). -/
def isAsciiLetter (c : Char) : Bool :=
  (65 ≤ c.toNat && c.toNat ≤ 90) || (97 ≤ c.toNat && c.toNat ≤ 122)

/-- Regex class `[PX^_]` (DCS / SOS / PM / APC lead byte). -/
def isDcsLead (c : Char) : Bool :=
  c.toNat = 80 || c.toNat = 88 || c.toNat = 94 || c.toNat = 95

/-- Regex class `[@-Z\\-_]` (single-character Fe sequences):
`@`–`Z` is 64–90, `\`–`_` is 92–95. -/
def isFeChar (c : Char) : Bool :=
  (64 ≤ c.toNat && c.toNat ≤ 90) || (92 ≤ c.toNat && c.toNat ≤ 95)

/-- ASCII decimal digit (`0`–`9`). -/
def isDigitChar (c : Char) : Bool := 48 ≤ c.toNat && c.toNat ≤ 57

/-- Numeric value of an ASCII digit. -/
def digitVal (c : Char) : Nat := c.toNat - 48

/-- ASCII whitespace stripped by Python's `int(str)` conversion
(space, `\t`, `\n`, `\v`, `\f`, `\r`); the Unicode extras are
irrelevant for this code base, whose parameter strings are drawn from
`[0-9;:]`. -/
def pyIsSpace (c : Char) : Bool :=
  c.toNat = 32 || c.toNat = 9 || c.toNat = 10 || c.toNat = 11 ||
  c.toNat = 12 || c.toNat = 13

/-- Digit tail of a Python integer literal: digits with single
underscores allowed between digit groups (`1_0` parses, `1__0`, `1_`,
`_1` do not). -/
def pyDigitsCore : List Char → Nat → Option Nat
  | [], acc => some acc
  | '_' :: c :: rest, acc =>
      if isDigitChar c then pyDigitsCore rest (acc * 10 + digitVal c) else none
  | ['_'], _ => none
  | c :: rest, acc =>
      if isDigitChar c then pyDigitsCore rest (acc * 10 + digitVal c) else none

/-- Unsigned digit string: must start with a digit. -/
def pyDigits : List Char → Option Nat
  | c :: rest => if isDigitChar c then pyDigitsCore rest (digitVal c) else none
  | [] => none

/-- Strip leading and trailing whitespace. -/
def stripSpaces (l : List Char) : List Char :=
  ((l.dropWhile pyIsSpace).reverse.dropWhile pyIsSpace).reverse

/-- Model of Python `int(s)`: `none` models `ValueError`. -/
def pyInt (l : List Char) : Option Int :=
  match stripSpaces l with
  | '+' :: rest => (pyDigits rest).map (fun n => (n : Int))
  | '-' :: rest => (pyDigits rest).map (fun n => -(n : Int))
  | t => (pyDigits t).map (fun n => (n : Int))

/-- The `ANSI_TO_RICH` dict of the source, as an association list
(keys are distinct, so dict and association-list lookup agree). -/
def ANSI_TO_RICH : List (String × String) := [
  ("0", "/"),
  ("1", "bold"), ("2", "dim"), ("3", "italic"), ("4", "underline"),
  ("5", "blink"), ("7", "reverse"), ("8", "hidden"), ("9", "strike"),
  ("21", "/bold"), ("22", "/dim"), ("23", "/italic"), ("24", "/underline"),
  ("25", "/blink"), ("27", "/reverse"), ("28", "/hidden"), ("29", "/strike"),
  ("30", "black"), ("31", "red"), ("32", "green"), ("33", "yellow"),
  ("34", "blue"), ("35", "magenta"), ("36", "cyan"), ("37", "white"),
  ("39", "default"),
  ("40", "on black"), ("41", "on red"), ("42", "on green"), ("43", "on yellow"),
  ("44", "on blue"), ("45", "on magenta"), ("46", "on cyan"), ("47", "on white"),
  ("49", "on default"),
  ("90", "bright_black"), ("91", "bright_red"), ("92", "bright_green"),
  ("93", "bright_yellow"), ("94", "bright_blue"), ("95", "bright_magenta"),
  ("96", "bright_cyan"), ("97", "bright_white"),
  ("100", "on bright_black"), ("101", "on bright_red"), ("102", "on bright_green"),
  ("103", "on bright_yellow"), ("104", "on bright_blue"), ("105", "on bright_magenta"),
  ("106", "on bright_cyan"), ("107", "on bright_white")]

/-- Association-list lookup (`param in ANSI_TO_RICH` / `ANSI_TO_RICH[param]`). -/
def tableLookup : List (String × String) → String → Option String
  | [], _ => none
  | (k, v) :: rest, s => if s = k then some v else tableLookup rest s

/-- Python `params.split(";")` (never returns an empty list;
`"".split(";") == [""]`). -/
def splitSemis : List Char → List (List Char)
  | [] => [[]]
  | c :: rest =>
      if c = ';' then [] :: splitSemis rest
      else
        match splitSemis rest with
        | p :: ps => (c :: p) :: ps
        | [] => [[c]]

/-- The two compound branches of `_parse_sgr` guarded by `param == "38"`,
applied to the parameter slots after the lead value:
`38;5;N` (256-color foreground, 3 slots) and `38;2;R;G;B`
(RGB foreground, 5 slots).  `none` means no compound branch fired
(insufficient slots, wrong discriminator, or `int()` raised), in which
case the Python `while` loop falls through to the single-code table and
then advances `i` by 1. -/
def compound38 : List (List Char) → Option (String × List (List Char))
  | q :: n :: rest2 =>
      if q = ['5'] then
        match pyInt n with
        | some k => some ("[color(" ++ toString k ++ ")]", rest2)
        | none => none
      else if q = ['2'] then
        match rest2 with
        | g :: b :: rest4 =>
            match pyInt n, pyInt g, pyInt b with
            | some rv, some gv, some bv =>
                some ("[rgb(" ++ toString rv ++ "," ++ toString gv ++ "," ++
                      toString bv ++ ")]", rest4)
            | _, _, _ => none
        | _ => none
      else none
  | _ => none

/-- Same for `param == "48"`: `48;5;N` and `48;2;R;G;B` (backgrounds). -/
def compound48 : List (List Char) → Option (String × List (List Char))
  | q :: n :: rest2 =>
      if q = ['5'] then
        match pyInt n with
        | some k => some ("[on color(" ++ toString k ++ ")]", rest2)
        | none => none
      else if q = ['2'] then
        match rest2 with
        | g :: b :: rest4 =>
            match pyInt n, pyInt g, pyInt b with
            | some rv, some gv, some bv =>
                some ("[on rgb(" ++ toString rv ++ "," ++ toString gv ++ "," ++
                      toString bv ++ ")]", rest4)
            | _, _, _ => none
        | _ => none
      else none
  | _ => none

/-- Dispatch of the four compound-directive branches on the lead value. -/
def compoundStep (p : List Char) (rest : List (List Char)) :
    Option (String × List (List Char)) :=
  if p = ['3', '8'] then compound38 rest
  else if p = ['4', '8'] then compound48 rest
  else none

/-- The `while i < len(parts)` loop of `_parse_sgr`, fuelled by the
number of remaining slots (each iteration consumes at least one slot,
so `parts.length` fuel always suffices — see `sgrLoopF_congr`).
In the table branch the Python source distinguishes `tag == "/"`
(emits `"[/]"`), `tag.startswith("/")` and the default case, but the
latter two both emit exactly `f"[{tag}]"`, so they are rendered by one
expression here. -/
def sgrLoopF : Nat → List (List Char) → String
  | 0, _ => ""
  | _ + 1, [] => ""
  | f + 1, p :: rest =>
      match compoundStep p rest with
      | some (tag, rest2) => tag ++ sgrLoopF f rest2
      | none =>
          match tableLookup ANSI_TO_RICH (String.mk p) with
          | some tag =>
              (if tag = "/" then "[/]" else "[" ++ tag ++ "]") ++ sgrLoopF f rest
          | none => sgrLoopF f rest

/-- The `_parse_sgr` loop on the split parameter list. -/
def sgrLoop (parts : List (List Char)) : String := sgrLoopF parts.length parts

/-- Python `_parse_sgr(params)`: the `if not params or params == "0"`
guard, then `params.split(";")` and the translation loop. -/
def parse_sgr (params : String) : String :=
  if params = "" || params = "0" then "[/]"
  else sgrLoop (splitSemis params.data)

/-- Per-character form of `_escape_rich_markup`:
`text.replace("[", "\\[").replace("]", "\\]")`.  The two `replace`
calls act independently (the first neither consumes nor produces `]`),
so the composite is the character homomorphism generated by
`'[' ↦ "\\["` and `']' ↦ "\\]"`. -/
def escChar (c : Char) : List Char :=
  if c = '[' then ['\\', '['] else if c = ']' then ['\\', ']'] else [c]

/-- Homomorphic extension of `escChar` to strings. -/
def escapeList : List Char → List Char
  | [] => []
  | c :: rest => escChar c ++ escapeList rest

/-- Python `_escape_rich_markup`. -/
def escape_rich_markup (s : String) : String := String.mk (escapeList s.data)

/-- One token of the scanner: a literal character (text between regex
matches, tokenised one character at a time — the escaper is a character
homomorphism, so span slicing and per-character emission agree), a CSI
sequence with its parameter field and command letter (`ANSI_CSI_PATTERN`
always fullmatches an alternative-1 match and never any other), or any
other matched control sequence (OSC / DCS-class / Fe), which the driver
strips. -/
inductive Tok where
  | lit (c : Char) : Tok
  | csi (ps : List Char) (cmd : Char) : Tok
  | ctrl : Tok
deriving DecidableEq

/-- Attempt of `ANSI_ALL_PATTERN` at an ESC character, given the input
after the ESC.  Returns the token and the input remaining after the
match, or `none` when no alternative matches there.  Backtracking never
changes these matches: in alternative 1 the greedy `[0-9;:]*` can only
end at a non-member, which is also not `[A-Za-z]` when the overall
match fails, and in alternatives 2–3 the starred classes exclude the
characters the optional terminators begin with. -/
def matchAfterEsc : List Char → Option (Tok × List Char)
  | [] => none
  | c :: rest =>
      if c = '[' then
        -- alternative 1: CSI `\[[0-9;:]*[A-Za-z]`
        match rest.dropWhile isParamChar with
        | d :: rest2 =>
            if isAsciiLetter d then some (.csi (rest.takeWhile isParamChar) d, rest2)
            else none
        | [] => none
      else if c = ']' then
        -- alternative 2: OSC `\][^\x07\x1B]*(?:\x07|\x1B\\)?`
        match rest.dropWhile (fun x => !(x = '\x07' || x = '\x1b')) with
        | '\x07' :: rest2 => some (.ctrl, rest2)
        | '\x1b' :: '\\' :: rest2 => some (.ctrl, rest2)
        | other => some (.ctrl, other)
      else if isDcsLead c then
        -- alternative 3: `[PX^_][^\x1B]*(?:\x1B\\)?`
        match rest.dropWhile (fun x => !(x = '\x1b')) with
        | '\x1b' :: '\\' :: rest2 => some (.ctrl, rest2)
        | other => some (.ctrl, other)
      else if isFeChar c then some (.ctrl, rest)
      else none

/-- `re.finditer(ANSI_ALL_PATTERN, text)` as a token stream: a match is
attempted at each ESC; on success scanning resumes after the match, on
failure (and at every non-ESC character) the character is literal text.
Fuelled by the input length (every step consumes at least one
character — see `scanF_congr`). -/
def scanF : Nat → List Char → List Tok
  | 0, _ => []
  | _ + 1, [] => []
  | f + 1, c :: rest =>
      if c = '\x1b' then
        match matchAfterEsc rest with
        | some (t, r) => t :: scanF f r
        | none => .lit c :: scanF f rest
      else .lit c :: scanF f rest

/-- The scanner on a whole input. -/
def scanToks (l : List Char) : List Tok := scanF l.length l

/-- Contribution of one token to the output of `ansi_to_rich`: literal
text is escaped, an SGR sequence (`command == "m"`) is translated by
`_parse_sgr`, everything else is stripped.  (The Python `if markup:`
guard only skips appending an empty string, which is a no-op.) -/
def renderTok : Tok → String
  | .lit c => String.mk (escChar c)
  | .csi ps cmd => if cmd = 'm' then parse_sgr (String.mk ps) else ""
  | .ctrl => ""

/-- `"".join(result)` over the rendered tokens. -/
def renderToks : List Tok → String
  | [] => ""
  | t :: ts => renderTok t ++ renderToks ts

/-- Python `ansi_to_rich(text)`. -/
def ansi_to_rich (text : String) : String := renderToks (scanToks text.data)

/-- The per-character loop of `OutputProcessor.process`, acting on the
raw text and the current line buffer; returns the completed raw lines
(in order) and the new buffer.  The `\r` lookahead `i + 1 < len(text)`
is chunk-local, exactly as in the source. -/
def processChars : List Char → List Char → List (List Char) × List Char
  | [], buf => ([], buf)
  | '\r' :: '\n' :: rest2, buf =>
      -- `\r\n`: treat as newline, emit and skip both characters
      let r := processChars rest2 []
      (buf :: r.1, r.2)
  | '\r' :: rest, _ =>
      -- bare `\r` (not followed by `\n` in this chunk): reset to start of line
      processChars rest []
  | '\n' :: rest, buf =>
      let r := processChars rest []
      (buf :: r.1, r.2)
  | '\x08' :: rest, buf =>
      -- backspace: drop last buffered character (no-op on empty)
      processChars rest buf.dropLast
  | c :: rest, buf => processChars rest (buf ++ [c])

/-- The single piece of mutable state: `self.current_line`. -/
structure OutputProcessor where
  current_line : List Char
deriving DecidableEq

/-- `OutputProcessor.process`, in state-passing form: returns the string
the Python method returns together with the updated processor. -/
def OutputProcessor.process (st : OutputProcessor) (text : String) :
    String × OutputProcessor :=
  let r := processChars text.data st.current_line
  (if r.1.isEmpty then ""
   else String.intercalate "\n" (r.1.map (fun l => ansi_to_rich (String.mk l))) ++ "\n",
   ⟨r.2⟩)

/-- `OutputProcessor.flush`. -/
def OutputProcessor.flush (st : OutputProcessor) : String × OutputProcessor :=
  if st.current_line.isEmpty then ("", st)
  else (ansi_to_rich (String.mk st.current_line) ++ "\n", ⟨[]⟩)

/-- `OutputProcessor.reset`. -/
def OutputProcessor.reset (_ : OutputProcessor) : OutputProcessor := ⟨[]⟩

/-- Text containing no ESC character (hence no escape sequences: every
`ANSI_ALL_PATTERN` match begins with ESC). -/
def noEsc (l : List Char) : Prop := ∀ c ∈ l, c ≠ '\x1b'

/-- A complete recognized control sequence that `ansi_to_rich` strips:
a CSI sequence whose command letter is not `m` (cursor movement, erase,
…), an OSC sequence terminated by BEL or by ST, a DCS / SOS / PM / APC
sequence terminated by ST, or a single-character Fe sequence (the Fe
bytes `P X ^ _` start alternative 3 and `]` starts alternative 2 of the
regex, so they are excluded from the single-character form; `[` is not
an Fe byte). -/
inductive StrippedSeq : List Char → Prop where
  | csi (ps : List Char) (cmd : Char) :
      (∀ x ∈ ps, isParamChar x) → isAsciiLetter cmd → cmd ≠ 'm' →
      StrippedSeq ('\x1b' :: '[' :: (ps ++ [cmd]))
  | oscBel (body : List Char) :
      (∀ x ∈ body, x ≠ '\x07' ∧ x ≠ '\x1b') →
      StrippedSeq ('\x1b' :: ']' :: (body ++ ['\x07']))
  | oscSt (body : List Char) :
      (∀ x ∈ body, x ≠ '\x07' ∧ x ≠ '\x1b') →
      StrippedSeq ('\x1b' :: ']' :: (body ++ ['\x1b', '\\']))
  | dcs (c : Char) (body : List Char) :
      isDcsLead c → (∀ x ∈ body, x ≠ '\x1b') →
      StrippedSeq ('\x1b' :: c :: (body ++ ['\x1b', '\\']))
  | fe (c : Char) :
      isFeChar c → c ≠ ']' → ¬isDcsLead c = true →
      StrippedSeq ['\x1b', c]

/-- A split of a text into two chunks is clean when it does not fall
between a `\r` and an immediately following `\n` (the chunk-local
lookahead of `processChars` treats that pair differently when split). -/
def okSplit (u v : List Char) : Prop :=
  ¬(u.getLast? = some '\r' ∧ v.head? = some '\n')

/-! ## String and list helper lemmas -/

theorem string_mk_append (a b : List Char) :
    String.mk a ++ String.mk b = String.mk (a ++ b) := rfl

theorem string_empty_append (s : String) : "" ++ s = s := by
  cases s
  show String.mk _ = _
  rw [List.nil_append]

theorem length_dropWhile_le {α} (p : α → Bool) (l : List α) :
    (l.dropWhile p).length ≤ l.length := by
  induction l with
  | nil => simp
  | cons a l ih =>
      by_cases h : p a
      · simp [List.dropWhile_cons, h]; omega
      · simp [List.dropWhile_cons, h]

theorem takeWhile_middle {α} (p : α → Bool) (l : List α) (c : α) (rest : List α)
    (hl : ∀ x ∈ l, p x = true) (hc : p c = false) :
    (l ++ c :: rest).takeWhile p = l := by
  induction l with
  | nil => simp [List.takeWhile_cons, hc]
  | cons a l ih =>
      have ha : p a = true := hl a (by simp)
      simp only [List.cons_append, List.takeWhile_cons, ha, if_true]
      rw [ih (fun x hx => hl x (by simp [hx]))]

theorem dropWhile_middle {α} (p : α → Bool) (l : List α) (c : α) (rest : List α)
    (hl : ∀ x ∈ l, p x = true) (hc : p c = false) :
    (l ++ c :: rest).dropWhile p = c :: rest := by
  induction l with
  | nil => simp [List.dropWhile_cons, hc]
  | cons a l ih =>
      have ha : p a = true := hl a (by simp)
      simp only [List.cons_append, List.dropWhile_cons, ha, if_true]
      exact ih (fun x hx => hl x (by simp [hx]))

theorem escapeList_append (u v : List Char) :
    escapeList (u ++ v) = escapeList u ++ escapeList v := by
  induction u with
  | nil => rfl
  | cons c u ih => simp [escapeList, ih]

theorem splitSemis_no_semi (l : List Char) (h : ∀ c ∈ l, c ≠ ';') :
    splitSemis l = [l] := by
  induction l with
  | nil => rfl
  | cons c rest ih =>
      have hc : c ≠ ';' := h c (by simp)
      simp only [splitSemis, if_neg hc]
      rw [ih (fun x hx => h x (by simp [hx]))]


/-! ## Scanner lemmas -/



theorem matchAfterEsc_length {l r : List Char} {t : Tok}
    (h : matchAfterEsc l = some (t, r)) : r.length ≤ l.length := by
  cases l with
  | nil => simp [matchAfterEsc] at h
  | cons c rest =>
      simp only [matchAfterEsc] at h
      split_ifs at h
      · have hd1 := length_dropWhile_le isParamChar rest
        split at h
        next d rest2 heq =>
          split_ifs at h
          injection h with h1
          injection h1 with h1a h1b
          subst h1b
          rw [heq] at hd1
          simp only [List.length_cons] at *
          omega
        next => exact absurd h (by simp)
      · have hd2 := length_dropWhile_le (fun x => !(x = '\x07' || x = '\x1b')) rest
        split at h
        all_goals
          injection h with h1
          injection h1 with h1a h1b
          subst h1b
          simp only [List.length_cons] at *
        · rename_i heq
          rw [heq] at hd2
          simp only [List.length_cons] at hd2
          omega
        · rename_i heq
          rw [heq] at hd2
          simp only [List.length_cons] at hd2
          omega
        · omega
      · have hd3 := length_dropWhile_le (fun x => !(x = '\x1b')) rest
        split at h
        all_goals
          injection h with h1
          injection h1 with h1a h1b
          subst h1b
          simp only [List.length_cons] at *
        · rename_i heq
          rw [heq] at hd3
          simp only [List.length_cons] at hd3
          omega
        · omega
      · injection h with h1
        injection h1 with h1a h1b
        subst h1b
        simp

theorem scanF_congr : ∀ (f1 f2 : Nat) (l : List Char),
    l.length ≤ f1 → l.length ≤ f2 → scanF f1 l = scanF f2 l := by
  intro f1
  induction f1 with
  | zero =>
      intro f2 l h1 _
      have hl : l = [] := List.length_eq_zero.mp (Nat.le_zero.mp h1)
      subst hl
      cases f2 <;> rfl
  | succ n ih =>
      intro f2 l h1 h2
      cases l with
      | nil => cases f2 <;> rfl
      | cons c rest =>
          cases f2 with
          | zero => simp at h2
          | succ m =>
              have hr1 : rest.length ≤ n := by simp at h1; omega
              have hr2 : rest.length ≤ m := by simp at h2; omega
              simp only [scanF]
              by_cases hc : c = '\x1b'
              · rw [if_pos hc, if_pos hc]
                cases hme : matchAfterEsc rest with
                | none => dsimp only; rw [ih m rest hr1 hr2]
                | some tr =>
                    obtain ⟨t, r⟩ := tr
                    have hlen := matchAfterEsc_length hme
                    dsimp only
                    rw [ih m r (le_trans hlen hr1) (le_trans hlen hr2)]
              · rw [if_neg hc, if_neg hc, ih m rest hr1 hr2]

theorem scanToks_nil : scanToks [] = [] := rfl

theorem scanToks_cons_lit {c : Char} (hc : c ≠ '\x1b') (rest : List Char) :
    scanToks (c :: rest) = .lit c :: scanToks rest := by
  show scanF (rest.length + 1) (c :: rest) = _
  simp only [scanF, if_neg hc]
  rfl

theorem scanToks_esc_some {rest r : List Char} {t : Tok}
    (h : matchAfterEsc rest = some (t, r)) :
    scanToks ('\x1b' :: rest) = t :: scanToks r := by
  show scanF (rest.length + 1) ('\x1b' :: rest) = _
  simp [scanF, scanToks, h]
  rw [scanF_congr rest.length r.length r (matchAfterEsc_length h) le_rfl]

theorem scanToks_esc_none {rest : List Char} (h : matchAfterEsc rest = none) :
    scanToks ('\x1b' :: rest) = .lit '\x1b' :: scanToks rest := by
  show scanF (rest.length + 1) ('\x1b' :: rest) = _
  simp [scanF, scanToks, h]

/-! ## SGR translator lemmas -/

theorem compound38_length {rest rest2 : List (List Char)} {tag : String}
    (h : compound38 rest = some (tag, rest2)) : rest2.length ≤ rest.length := by
  match rest with
  | [] => simp [compound38] at h
  | [q] => simp [compound38] at h
  | q :: n :: r2 =>
      simp only [compound38] at h
      split_ifs at h
      · cases hpi : pyInt n <;> rw [hpi] at h
        · exact absurd h (by simp)
        · injection h with h1
          injection h1 with h1a h1b
          subst h1b
          simp
          omega
      · split at h
        next g b r4 =>
          cases hr : pyInt n <;> cases hg : pyInt g <;> cases hb : pyInt b <;>
            rw [hr, hg, hb] at h
          all_goals injection h
          all_goals
            rename_i h1
            injection h1 with h1a h1b
            subst h1b
            simp
            omega
        next => exact absurd h (by simp)

theorem compound48_length {rest rest2 : List (List Char)} {tag : String}
    (h : compound48 rest = some (tag, rest2)) : rest2.length ≤ rest.length := by
  match rest with
  | [] => simp [compound48] at h
  | [q] => simp [compound48] at h
  | q :: n :: r2 =>
      simp only [compound48] at h
      split_ifs at h
      · cases hpi : pyInt n <;> rw [hpi] at h
        · exact absurd h (by simp)
        · injection h with h1
          injection h1 with h1a h1b
          subst h1b
          simp
          omega
      · split at h
        next g b r4 =>
          cases hr : pyInt n <;> cases hg : pyInt g <;> cases hb : pyInt b <;>
            rw [hr, hg, hb] at h
          all_goals injection h
          all_goals
            rename_i h1
            injection h1 with h1a h1b
            subst h1b
            simp
            omega
        next => exact absurd h (by simp)

theorem compoundStep_length {p : List Char} {rest rest2 : List (List Char)} {tag : String}
    (h : compoundStep p rest = some (tag, rest2)) : rest2.length ≤ rest.length := by
  unfold compoundStep at h
  split_ifs at h
  · exact compound38_length h
  · exact compound48_length h

theorem sgrLoopF_congr : ∀ (f1 f2 : Nat) (parts : List (List Char)),
    parts.length ≤ f1 → parts.length ≤ f2 → sgrLoopF f1 parts = sgrLoopF f2 parts := by
  intro f1
  induction f1 with
  | zero =>
      intro f2 parts h1 _
      have hp : parts = [] := List.length_eq_zero.mp (Nat.le_zero.mp h1)
      subst hp
      cases f2 <;> rfl
  | succ n ih =>
      intro f2 parts h1 h2
      cases parts with
      | nil => cases f2 <;> rfl
      | cons p rest =>
          cases f2 with
          | zero => simp at h2
          | succ m =>
              have hr1 : rest.length ≤ n := by simp at h1; omega
              have hr2 : rest.length ≤ m := by simp at h2; omega
              simp only [sgrLoopF]
              cases hcs : compoundStep p rest with
              | some tr =>
                  obtain ⟨tag, rest2⟩ := tr
                  have hlen := compoundStep_length hcs
                  dsimp only
                  rw [ih m rest2 (le_trans hlen hr1) (le_trans hlen hr2)]
              | none =>
                  dsimp only
                  cases tableLookup ANSI_TO_RICH (String.mk p) with
                  | some tag => dsimp only; rw [ih m rest hr1 hr2]
                  | none => dsimp only; rw [ih m rest hr1 hr2]

theorem sgrLoop_compound {p : List Char} {rest rest2 : List (List Char)} {tag : String}
    (h : compoundStep p rest = some (tag, rest2)) :
    sgrLoop (p :: rest) = tag ++ sgrLoop rest2 := by
  show sgrLoopF (rest.length + 1) (p :: rest) = _
  simp only [sgrLoopF, h]
  rw [sgrLoopF_congr rest.length rest2.length rest2 (compoundStep_length h) le_rfl]
  rfl

theorem sgrLoop_table {p : List Char} {rest : List (List Char)} {tag : String}
    (hc : compoundStep p rest = none)
    (ht : tableLookup ANSI_TO_RICH (String.mk p) = some tag) :
    sgrLoop (p :: rest) =
      (if tag = "/" then "[/]" else "[" ++ tag ++ "]") ++ sgrLoop rest := by
  show sgrLoopF (rest.length + 1) (p :: rest) = _
  simp only [sgrLoopF, hc, ht]
  rfl

theorem sgrLoop_skip {p : List Char} {rest : List (List Char)}
    (hc : compoundStep p rest = none)
    (ht : tableLookup ANSI_TO_RICH (String.mk p) = none) :
    sgrLoop (p :: rest) = sgrLoop rest := by
  show sgrLoopF (rest.length + 1) (p :: rest) = _
  simp only [sgrLoopF, hc, ht]
  rfl

/-! ## Character class and table lemmas -/

theorem isParamChar_eq_false_of_letter {c : Char} (h : isAsciiLetter c = true) :
    isParamChar c = false := by
  simp [isAsciiLetter] at h
  simp [isParamChar]
  omega

theorem fe_ne_lbracket {c : Char} (h : isFeChar c = true) : c ≠ '[' := by
  intro he
  subst he
  exact absurd h (by decide)

theorem dcsLead_ne_lbracket {c : Char} (h : isDcsLead c = true) : c ≠ '[' := by
  intro he
  subst he
  exact absurd h (by decide)

theorem dcsLead_ne_rbracket {c : Char} (h : isDcsLead c = true) : c ≠ ']' := by
  intro he
  subst he
  exact absurd h (by decide)

theorem tableLookup_eq_none {tbl : List (String × String)} {s : String}
    (h : ∀ p ∈ tbl, s ≠ p.1) : tableLookup tbl s = none := by
  induction tbl with
  | nil => rfl
  | cons kv rest ih =>
      obtain ⟨k, v⟩ := kv
      simp only [tableLookup, if_neg (h (k, v) (by simp))]
      exact ih (fun p hp => h p (by simp [hp]))

theorem tableLookup_colon_none {ps : List Char} (hc : ':' ∈ ps) :
    tableLookup ANSI_TO_RICH (String.mk ps) = none := by
  apply tableLookup_eq_none
  intro p hp heq
  have htbl : ANSI_TO_RICH.all (fun p => p.1.data.all isDigitChar) = true := by decide
  have hall : p.1.data.all isDigitChar = true := List.all_eq_true.mp htbl p hp
  rw [← heq] at hall
  have hdig : isDigitChar ':' = true := List.all_eq_true.mp hall ':' hc
  exact absurd hdig (by decide)

/-! ## Recognition lemmas: complete sequences match exactly themselves -/

theorem matchAfterEsc_csi (ps : List Char) (cmd : Char) (v : List Char)
    (hps : ∀ x ∈ ps, isParamChar x = true) (hcmd : isAsciiLetter cmd = true) :
    matchAfterEsc ('[' :: (ps ++ cmd :: v)) = some (.csi ps cmd, v) := by
  have hnp : isParamChar cmd = false := isParamChar_eq_false_of_letter hcmd
  simp only [matchAfterEsc, if_pos rfl]
  rw [dropWhile_middle _ _ _ _ hps hnp, takeWhile_middle _ _ _ _ hps hnp]
  simp [hcmd]

theorem matchAfterEsc_oscBel (body v : List Char)
    (hb : ∀ x ∈ body, x ≠ '\x07' ∧ x ≠ '\x1b') :
    matchAfterEsc (']' :: (body ++ '\x07' :: v)) = some (.ctrl, v) := by
  simp only [matchAfterEsc, if_neg (by decide : ¬(']' : Char) = '['), if_pos rfl]
  rw [dropWhile_middle (fun x => !(x = '\x07' || x = '\x1b')) body '\x07' v
       (fun x hx => by simp [(hb x hx).1, (hb x hx).2]) (by decide)]
  rfl

theorem matchAfterEsc_oscSt (body v : List Char)
    (hb : ∀ x ∈ body, x ≠ '\x07' ∧ x ≠ '\x1b') :
    matchAfterEsc (']' :: (body ++ '\x1b' :: '\\' :: v)) = some (.ctrl, v) := by
  simp only [matchAfterEsc, if_neg (by decide : ¬(']' : Char) = '['), if_pos rfl]
  rw [show body ++ '\x1b' :: '\\' :: v = body ++ '\x1b' :: ('\\' :: v) from rfl,
      dropWhile_middle (fun x => !(x = '\x07' || x = '\x1b')) body '\x1b' ('\\' :: v)
       (fun x hx => by simp [(hb x hx).1, (hb x hx).2]) (by decide)]
  rfl

theorem matchAfterEsc_dcs (c : Char) (body v : List Char)
    (hc : isDcsLead c = true) (hb : ∀ x ∈ body, x ≠ '\x1b') :
    matchAfterEsc (c :: (body ++ '\x1b' :: '\\' :: v)) = some (.ctrl, v) := by
  simp only [matchAfterEsc, if_neg (dcsLead_ne_lbracket hc),
             if_neg (dcsLead_ne_rbracket hc), if_pos hc]
  rw [show body ++ '\x1b' :: '\\' :: v = body ++ '\x1b' :: ('\\' :: v) from rfl,
      dropWhile_middle (fun x => !(x = '\x1b')) body '\x1b' ('\\' :: v)
       (fun x hx => by simp [hb x hx]) (by decide)]
  rfl

theorem matchAfterEsc_fe (c : Char) (v : List Char)
    (hfe : isFeChar c = true) (h1 : c ≠ ']') (h2 : ¬isDcsLead c = true) :
    matchAfterEsc (c :: v) = some (.ctrl, v) := by
  simp only [matchAfterEsc, if_neg (fe_ne_lbracket hfe), if_neg h1, if_neg h2,
             if_pos hfe]

/-! ## Rendering lemmas -/

theorem renderToks_append (a b : List Tok) :
    renderToks (a ++ b) = renderToks a ++ renderToks b := by
  induction a with
  | nil => rw [List.nil_append, renderToks, string_empty_append]
  | cons t a ih =>
      rw [List.cons_append, renderToks, renderToks, ih, String.append_assoc]

theorem renderToks_map_lit (u : List Char) :
    renderToks (u.map Tok.lit) = String.mk (escapeList u) := by
  induction u with
  | nil => rfl
  | cons c u ih =>
      simp only [List.map_cons, renderToks, renderTok, ih, escapeList,
                 ← string_mk_append]

theorem scanToks_append_lit (u w : List Char) (hu : noEsc u) :
    scanToks (u ++ w) = u.map Tok.lit ++ scanToks w := by
  induction u with
  | nil => rfl
  | cons c u ih =>
      have hc : c ≠ '\x1b' := hu c (by simp)
      rw [List.cons_append, scanToks_cons_lit hc,
          ih (fun x hx => hu x (by simp [hx])), List.map_cons, List.cons_append]

theorem scanToks_stripped (s v : List Char) (hs : StrippedSeq s) :
    ∃ t : Tok, scanToks (s ++ v) = t :: scanToks v ∧ renderTok t = "" := by
  cases hs with
  | csi ps cmd hps hcmd hm =>
      refine ⟨.csi ps cmd, ?_, by simp [renderTok, hm]⟩
      have : ('\x1b' :: '[' :: (ps ++ [cmd])) ++ v =
          '\x1b' :: ('[' :: (ps ++ cmd :: v)) := by simp
      rw [this, scanToks_esc_some (matchAfterEsc_csi ps cmd v hps hcmd)]
  | oscBel body hb =>
      refine ⟨.ctrl, ?_, rfl⟩
      have : ('\x1b' :: ']' :: (body ++ ['\x07'])) ++ v =
          '\x1b' :: (']' :: (body ++ '\x07' :: v)) := by simp
      rw [this, scanToks_esc_some (matchAfterEsc_oscBel body v hb)]
  | oscSt body hb =>
      refine ⟨.ctrl, ?_, rfl⟩
      have : ('\x1b' :: ']' :: (body ++ ['\x1b', '\\'])) ++ v =
          '\x1b' :: (']' :: (body ++ '\x1b' :: '\\' :: v)) := by simp
      rw [this, scanToks_esc_some (matchAfterEsc_oscSt body v hb)]
  | dcs c body hc hb =>
      refine ⟨.ctrl, ?_, rfl⟩
      have : ('\x1b' :: c :: (body ++ ['\x1b', '\\'])) ++ v =
          '\x1b' :: (c :: (body ++ '\x1b' :: '\\' :: v)) := by simp
      rw [this, scanToks_esc_some (matchAfterEsc_dcs c body v hc hb)]
  | fe c hfe h1 h2 =>
      refine ⟨.ctrl, ?_, rfl⟩
      have : ['\x1b', c] ++ v = '\x1b' :: (c :: v) := by simp
      rw [this, scanToks_esc_some (matchAfterEsc_fe c v hfe h1 h2)]

/-! ## Line assembler lemmas -/

theorem pc_nil (buf : List Char) : processChars [] buf = ([], buf) := rfl

theorem pc_crlf (rest buf : List Char) :
    processChars ('\r' :: '\n' :: rest) buf =
      (buf :: (processChars rest []).1, (processChars rest []).2) := rfl

theorem pc_cr {rest : List Char} (h : rest.head? ≠ some '\n') (buf : List Char) :
    processChars ('\r' :: rest) buf = processChars rest [] := by
  cases rest with
  | nil => rfl
  | cons c r =>
      have hc : c ≠ '\n' := by simpa using h
      simp [processChars, hc]

theorem pc_lf (rest buf : List Char) :
    processChars ('\n' :: rest) buf =
      (buf :: (processChars rest []).1, (processChars rest []).2) := rfl

theorem pc_bs (rest buf : List Char) :
    processChars ('\x08' :: rest) buf = processChars rest buf.dropLast := rfl

theorem pc_other {c : Char} (h1 : c ≠ '\r') (h2 : c ≠ '\n') (h3 : c ≠ '\x08')
    (rest buf : List Char) :
    processChars (c :: rest) buf = processChars rest (buf ++ [c]) := by
  simp [processChars, h1, h2, h3]

theorem okSplit_cons {c : Char} {u v : List Char} (h : okSplit (c :: u) v) :
    okSplit u v := by
  cases u with
  | nil => simp [okSplit]
  | cons d u2 =>
      intro hp
      exact h ⟨by rw [List.getLast?_cons_cons]; exact hp.1, hp.2⟩

theorem processChars_append_of_okSplit :
    ∀ (n : Nat) (u v buf : List Char), u.length ≤ n → okSplit u v →
    processChars (u ++ v) buf =
      ((processChars u buf).1 ++ (processChars v (processChars u buf).2).1,
       (processChars v (processChars u buf).2).2) := by
  intro n
  induction n with
  | zero =>
      intro u v buf h1 _
      have hu : u = [] := List.length_eq_zero.mp (Nat.le_zero.mp h1)
      subst hu
      simp [pc_nil]
  | succ n ih =>
      intro u v buf h1 hok
      cases u with
      | nil => simp [pc_nil]
      | cons c u1 =>
          have hlen1 : u1.length ≤ n := by simp at h1; omega
          by_cases hcr : c = '\r'
          · subst hcr
            cases u1 with
            | nil =>
                have hv : v.head? ≠ some '\n' := fun hh => hok ⟨rfl, hh⟩
                rw [List.cons_append, List.nil_append, pc_cr hv,
                    pc_cr (by simp : ([] : List Char).head? ≠ some '\n'), pc_nil]
                simp
            | cons c2 u2 =>
                by_cases hlf : c2 = '\n'
                · subst hlf
                  have hok2 : okSplit u2 v := okSplit_cons (okSplit_cons hok)
                  have hlen2 : u2.length ≤ n := by simp at h1; omega
                  rw [List.cons_append, List.cons_append, pc_crlf, pc_crlf,
                      ih u2 v [] hlen2 hok2]
                  simp
                · have hhead : ((c2 :: u2) ++ v).head? ≠ some '\n' := by
                    simp [hlf]
                  have hhead2 : (c2 :: u2).head? ≠ some '\n' := by simp [hlf]
                  rw [List.cons_append, pc_cr hhead, pc_cr hhead2]
                  exact ih (c2 :: u2) v [] hlen1 (okSplit_cons hok)
          · by_cases hlf : c = '\n'
            · subst hlf
              rw [List.cons_append, pc_lf, pc_lf,
                  ih u1 v [] hlen1 (okSplit_cons hok)]
              simp
            · by_cases hbs : c = '\x08'
              · subst hbs
                rw [List.cons_append, pc_bs, pc_bs]
                exact ih u1 v buf.dropLast hlen1 (okSplit_cons hok)
              · rw [List.cons_append, pc_other hcr hlf hbs, pc_other hcr hlf hbs]
                exact ih u1 v (buf ++ [c]) hlen1 (okSplit_cons hok)

/-! ## Claim theorems -/

/-- C1: for every SGR parameter list in which a compound color directive
(lead value `38` or `48` followed by `5` or `2`) has too few trailing
slots or a slot that does not parse as an integer, the translator (a
total function — no exception is modelled or needed) emits no tag for
the lead value and resumes scanning at the slot immediately after the
lead value, still translating all remaining parameters:
`sgrLoop (p :: rest) = sgrLoop rest`. -/
theorem c1_malformed_compound_resumes (p : List Char) (rest : List (List Char))
    (hp : p = "38".data ∨ p = "48".data)
    (hm : rest = ["5".data]
        ∨ (∃ x rest2, rest = "5".data :: x :: rest2 ∧ pyInt x = none)
        ∨ (∃ t, rest = "2".data :: t ∧ t.length < 3)
        ∨ (∃ r g b rest4, rest = "2".data :: r :: g :: b :: rest4 ∧
             (pyInt r = none ∨ pyInt g = none ∨ pyInt b = none))) :
    sgrLoop (p :: rest) = sgrLoop rest := by
  have h38 : compound38 rest = none := by
    rcases hm with h | ⟨x, rest2, h, hx⟩ | ⟨t, h, ht⟩ | ⟨r, g, b, rest4, h, hrgb⟩
    · subst h; rfl
    · subst h; simp [compound38, hx]
    · subst h
      rcases t with _ | ⟨a, _ | ⟨b, _ | ⟨c, t'⟩⟩⟩
      · rfl
      · rfl
      · rfl
      · exact absurd ht (by simp)
    · subst h
      rcases hrgb with hr | hg | hb
      · cases hg' : pyInt g <;> cases hb' : pyInt b <;>
          simp [compound38, hr, hg', hb']
      · cases hr' : pyInt r <;> cases hb' : pyInt b <;>
          simp [compound38, hr', hg, hb']
      · cases hr' : pyInt r <;> cases hg' : pyInt g <;>
          simp [compound38, hr', hg', hb]
  have h48 : compound48 rest = none := by
    rcases hm with h | ⟨x, rest2, h, hx⟩ | ⟨t, h, ht⟩ | ⟨r, g, b, rest4, h, hrgb⟩
    · subst h; rfl
    · subst h; simp [compound48, hx]
    · subst h
      rcases t with _ | ⟨a, _ | ⟨b, _ | ⟨c, t'⟩⟩⟩
      · rfl
      · rfl
      · rfl
      · exact absurd ht (by simp)
    · subst h
      rcases hrgb with hr | hg | hb
      · cases hg' : pyInt g <;> cases hb' : pyInt b <;>
          simp [compound48, hr, hg', hb']
      · cases hr' : pyInt r <;> cases hb' : pyInt b <;>
          simp [compound48, hr', hg, hb']
      · cases hr' : pyInt r <;> cases hg' : pyInt g <;>
          simp [compound48, hr', hg', hb]
  have hcs : compoundStep p rest = none := by
    rcases hp with h | h <;> subst h <;> simp [compoundStep, h38, h48]
  have htl : tableLookup ANSI_TO_RICH (String.mk p) = none := by
    rcases hp with h | h <;> subst h <;> decide
  exact sgrLoop_skip hcs htl

/-- C1 witness: `38;5` (too few slots for an indexed-color directive)
emits nothing for `38` and continues at `5`. -/
theorem c1_witness : sgrLoop ["38".data, "5".data] = sgrLoop ["5".data] :=
  c1_malformed_compound_resumes "38".data ["5".data] (Or.inl rfl) (Or.inl rfl)

/-- C2: a well-formed compound directive `38;5;N` (N an integer)
produces exactly the open tag `[color(N)]` and consumes exactly 3
parameter slots (the loop continues at the remaining slots `rest`);
`38;2;R;G;B` produces exactly `[rgb(R,G,B)]` and consumes exactly 5
slots; with lead value `48` the produced tags are `[on color(N)]` and
`[on rgb(R,G,B)]` respectively. -/
theorem c2_wellformed_compound (n r g b : List Char) (rest : List (List Char))
    (kn kr kg kb : Int)
    (hn : pyInt n = some kn) (hr : pyInt r = some kr)
    (hg : pyInt g = some kg) (hb : pyInt b = some kb) :
    sgrLoop ("38".data :: "5".data :: n :: rest) =
      "[color(" ++ toString kn ++ ")]" ++ sgrLoop rest
    ∧ sgrLoop ("48".data :: "5".data :: n :: rest) =
      "[on color(" ++ toString kn ++ ")]" ++ sgrLoop rest
    ∧ sgrLoop ("38".data :: "2".data :: r :: g :: b :: rest) =
      "[rgb(" ++ toString kr ++ "," ++ toString kg ++ "," ++ toString kb ++ ")]" ++
        sgrLoop rest
    ∧ sgrLoop ("48".data :: "2".data :: r :: g :: b :: rest) =
      "[on rgb(" ++ toString kr ++ "," ++ toString kg ++ "," ++ toString kb ++ ")]" ++
        sgrLoop rest := by
  refine ⟨?_, ?_, ?_, ?_⟩
  · exact sgrLoop_compound (by simp [compoundStep, compound38, hn])
  · exact sgrLoop_compound (by simp [compoundStep, compound48, hn])
  · exact sgrLoop_compound (by simp [compoundStep, compound38, hr, hg, hb])
  · exact sgrLoop_compound (by simp [compoundStep, compound48, hr, hg, hb])

/-- C2 witness: `38;5;196`, `48;5;196`, `38;2;255;0;0` and
`48;2;255;0;0` at the head of an otherwise empty parameter list. -/
theorem c2_witness :
    sgrLoop ["38".data, "5".data, "196".data] = "[color(" ++ toString (196 : Int) ++ ")]" ++ sgrLoop []
    ∧ sgrLoop ["48".data, "5".data, "196".data] = "[on color(" ++ toString (196 : Int) ++ ")]" ++ sgrLoop []
    ∧ sgrLoop ["38".data, "2".data, "255".data, "0".data, "0".data] =
        "[rgb(" ++ toString (255 : Int) ++ "," ++ toString (0 : Int) ++ "," ++ toString (0 : Int) ++ ")]" ++ sgrLoop []
    ∧ sgrLoop ["48".data, "2".data, "255".data, "0".data, "0".data] =
        "[on rgb(" ++ toString (255 : Int) ++ "," ++ toString (0 : Int) ++ "," ++ toString (0 : Int) ++ ")]" ++ sgrLoop [] :=
  c2_wellformed_compound "196".data "255".data "0".data "0".data [] 196 255 0 0
    (by decide) (by decide) (by decide) (by decide)

/-- C3: feeding the single chunk `"abc\r\ndef\n"` to a freshly
constructed line assembler emits, in order, exactly the completed raw
lines `"abc"` then `"def"` (CR+LF acting as one terminator, the lone LF
as another), returns the string `"abc\ndef\n"`, and leaves the line
buffer empty. -/
theorem c3_crlf_single_chunk :
    processChars "abc\r\ndef\n".data [] = ([['a', 'b', 'c'], ['d', 'e', 'f']], [])
    ∧ (OutputProcessor.mk []).process "abc\r\ndef\n" =
        ("abc\ndef\n", OutputProcessor.mk []) := by
  constructor
  · decide
  · decide

/-- C4: a carriage return not immediately followed by a line feed
resets the line buffer and emits no completed line: `"abc\rdef\n"` on a
fresh assembler yields exactly the one completed line `"def"`, the
earlier `"abc"` content fully discarded. -/
theorem c4_bare_cr_discards :
    processChars "abc\rdef\n".data [] = ([['d', 'e', 'f']], [])
    ∧ (OutputProcessor.mk []).process "abc\rdef\n" =
        ("def\n", OutputProcessor.mk []) := by
  constructor
  · decide
  · decide

/-- C6: after feeding `"partial"` (no terminator) to a fresh assembler,
`process` returns the empty string; `flush()` then returns
`"partial\n"` and clears the buffer; a second `flush()` returns the
empty string; and `reset()` on the unflushed state discards the content
so that the next `flush()` returns the empty string. -/
theorem c6_flush_reset :
    ((OutputProcessor.mk []).process "partial").1 = ""
    ∧ ((OutputProcessor.mk []).process "partial").2.flush =
        ("partial\n", OutputProcessor.mk [])
    ∧ (((OutputProcessor.mk []).process "partial").2.flush).2.flush =
        ("", OutputProcessor.mk [])
    ∧ (((OutputProcessor.mk []).process "partial").2.reset).flush =
        ("", OutputProcessor.mk []) := by
  refine ⟨?_, ?_, ?_, ?_⟩ <;> decide

/-- C8: an empty SGR parameter list and the single value `0` both yield
exactly the full-reset tag `[/]`; the single code `31` yields exactly
`[red]`; hence `ESC[31m` + `red` + `ESC[0m` converts to exactly
`[red]red[/]`. -/
theorem c8_reset_and_basic_color :
    parse_sgr "" = "[/]"
    ∧ parse_sgr "0" = "[/]"
    ∧ parse_sgr "31" = "[red]"
    ∧ ansi_to_rich "\x1b[31mred\x1b[0m" = "[red]red[/]" := by
  refine ⟨?_, ?_, ?_, ?_⟩ <;> decide

/-- C5 counterexample: the claimed split-invariance fails at
`"abc\r\n"` split as `"abc\r"` + `"\n"`: processed as one chunk the
assembler emits the single raw line `"abc"`, while the split feeding
emits the single empty raw line (the buffered `"abc"` is discarded by
the chunk-final bare CR and the following chunk's LF terminates an
empty buffer). -/
theorem c5_counterexample :
    ¬(processChars ("abc\r".data ++ "\n".data) [] =
        ((processChars "abc\r".data []).1 ++
           (processChars "\n".data (processChars "abc\r".data []).2).1,
         (processChars "\n".data (processChars "abc\r".data []).2).2)) := by
  decide

/-- C5 amended: for every text and every split of it into two
consecutive chunks such that the split does not fall between a carriage
return and an immediately following line feed, feeding the two chunks
in order produces the same completed raw lines and the same final
buffer as feeding the text as a single chunk (from any starting buffer,
in particular from a fresh assembler). -/
theorem c5_amended_split_invariance (u v buf : List Char)
    (h : ¬(u.getLast? = some '\r' ∧ v.head? = some '\n')) :
    processChars (u ++ v) buf =
      ((processChars u buf).1 ++ (processChars v (processChars u buf).2).1,
       (processChars v (processChars u buf).2).2) :=
  processChars_append_of_okSplit u.length u v buf le_rfl h

/-- C5 witness: `"abc\rdef\n"` split after `"abc"`. -/
theorem c5_witness :
    processChars ("abc".data ++ "\rdef\n".data) [] =
      ((processChars "abc".data []).1 ++
         (processChars "\rdef\n".data (processChars "abc".data []).2).1,
       (processChars "\rdef\n".data (processChars "abc".data []).2).2) :=
  c5_amended_split_invariance "abc".data "\rdef\n".data [] (by decide)

theorem scanToks_all_lit (l : List Char) (h : noEsc l) :
    scanToks l = l.map Tok.lit := by
  induction l with
  | nil => rfl
  | cons c rest ih =>
      rw [scanToks_cons_lit (h c (by simp)),
          ih (fun x hx => h x (by simp [hx])), List.map_cons]

theorem escapeList_id (l : List Char) (h : ∀ c ∈ l, c ≠ '[' ∧ c ≠ ']') :
    escapeList l = l := by
  induction l with
  | nil => rfl
  | cons c rest ih =>
      have hc := h c (by simp)
      simp [escapeList, escChar, hc.1, hc.2,
            ih (fun x hx => h x (by simp [hx]))]

/-- C7: a recognized control sequence whose command character is not
`m` (a CSI cursor-movement or erase sequence such as `ESC[2K`, an OSC
sequence, a DCS/SOS/PM/APC sequence, or a single-character Fe sequence)
contributes no characters to the converted output, and the surrounding
literal text converts exactly as it would without the sequence (order
preserved). -/
theorem c7_non_sgr_stripped (u s v : List Char) (hu : noEsc u)
    (hs : StrippedSeq s) :
    ansi_to_rich (String.mk (u ++ s ++ v)) = ansi_to_rich (String.mk (u ++ v)) := by
  obtain ⟨t, hscan, hrt⟩ := scanToks_stripped s v hs
  show renderToks (scanToks (u ++ s ++ v)) = renderToks (scanToks (u ++ v))
  rw [List.append_assoc, scanToks_append_lit u (s ++ v) hu,
      scanToks_append_lit u v hu, renderToks_append, renderToks_append, hscan]
  simp only [renderToks]
  rw [hrt, string_empty_append]

/-- C7 witness: the erase-in-line sequence `ESC[2K` between literal
`x` and `y` contributes nothing. -/
theorem c7_witness :
    ansi_to_rich (String.mk ("x".data ++ "\x1b[2K".data ++ "y".data)) =
      ansi_to_rich (String.mk ("x".data ++ "y".data)) :=
  c7_non_sgr_stripped "x".data "\x1b[2K".data "y".data (by unfold noEsc; decide)
    (show StrippedSeq ('\x1b' :: '[' :: (['2'] ++ ['K'])) from
      StrippedSeq.csi ['2'] 'K' (by decide) (by decide) (by decide))

/-- C9: on escape-free text, conversion is exactly the literal escaper
(each `[` becomes `\[`, each `]` becomes `\]`, nothing else changes);
in particular it is the identity on escape-free bracket-free text, and
`a[b]c` converts to `a\[b\]c`. -/
theorem c9_literal_passthrough (l : List Char) (h : noEsc l) :
    ansi_to_rich (String.mk l) = escape_rich_markup (String.mk l)
    ∧ ((∀ c ∈ l, c ≠ '[' ∧ c ≠ ']') → ansi_to_rich (String.mk l) = String.mk l)
    ∧ ansi_to_rich "a[b]c" = "a\\[b\\]c" := by
  have h1 : ansi_to_rich (String.mk l) = String.mk (escapeList l) := by
    show renderToks (scanToks l) = _
    rw [scanToks_all_lit l h, renderToks_map_lit]
  refine ⟨h1, fun hb => ?_, by decide⟩
  rw [h1, escapeList_id l hb]

/-- C9 witness: instantiated at the escape-free text `a[b]c`. -/
theorem c9_witness :
    ansi_to_rich (String.mk "a[b]c".data) = escape_rich_markup (String.mk "a[b]c".data)
    ∧ ((∀ c ∈ "a[b]c".data, c ≠ '[' ∧ c ≠ ']') →
        ansi_to_rich (String.mk "a[b]c".data) = String.mk "a[b]c".data)
    ∧ ansi_to_rich "a[b]c" = "a\\[b\\]c" :=
  c9_literal_passthrough "a[b]c".data (by unfold noEsc; decide)

/-- C10: an `m`-terminated CSI sequence whose parameter field uses
colon separators instead of semicolons (at least one `:`, no `;`, e.g.
`ESC[38:5:196m`) is recognized and consumed by the scanner, but the
translator emits no markup for it: splitting only on semicolons leaves
a single colon-containing parameter that matches no compound directive
and no table code, so the whole sequence is silently dropped rather
than rendered as a color. -/
theorem c10_colon_csi_dropped (ps u v : List Char)
    (hps : ∀ x ∈ ps, isParamChar x = true) (hcolon : ':' ∈ ps)
    (hsemi : ';' ∉ ps) (hu : noEsc u) :
    parse_sgr (String.mk ps) = ""
    ∧ ansi_to_rich (String.mk (u ++ ('\x1b' :: '[' :: (ps ++ ['m'])) ++ v)) =
        ansi_to_rich (String.mk (u ++ v)) := by
  have hps_ne : ps ≠ [] := by
    intro he
    subst he
    simp at hcolon
  have h0 : ¬(String.mk ps = "") := by
    intro he
    exact hps_ne (congrArg String.data he)
  have h0' : ¬(String.mk ps = "0") := by
    intro he
    have hps0 : ps = ['0'] := congrArg String.data he
    rw [hps0] at hcolon
    simp at hcolon
  have hsgr : parse_sgr (String.mk ps) = "" := by
    rw [parse_sgr, if_neg (by simp [h0, h0'])]
    show sgrLoop (splitSemis ps) = ""
    rw [splitSemis_no_semi ps (fun c hc he => hsemi (he ▸ hc))]
    have hcs : compoundStep ps [] = none := by
      unfold compoundStep
      split_ifs <;> rfl
    rw [sgrLoop_skip hcs (tableLookup_colon_none hcolon)]
    rfl
  refine ⟨hsgr, ?_⟩
  show renderToks (scanToks (u ++ ('\x1b' :: '[' :: (ps ++ ['m'])) ++ v)) =
      renderToks (scanToks (u ++ v))
  rw [List.append_assoc, scanToks_append_lit u _ hu, scanToks_append_lit u v hu,
      renderToks_append, renderToks_append]
  have hsv : ('\x1b' :: '[' :: (ps ++ ['m'])) ++ v =
      '\x1b' :: ('[' :: (ps ++ 'm' :: v)) := by simp
  rw [hsv, scanToks_esc_some (matchAfterEsc_csi ps 'm' v hps (by decide))]
  simp [renderToks, renderTok, hsgr, string_empty_append]

/-- C10 witness: `ESC[38:5:196m` alone converts to nothing. -/
theorem c10_witness :
    parse_sgr (String.mk "38:5:196".data) = ""
    ∧ ansi_to_rich (String.mk ([] ++ ('\x1b' :: '[' :: ("38:5:196".data ++ ['m'])) ++ [])) =
        ansi_to_rich (String.mk ([] ++ [])) :=
  c10_colon_csi_dropped "38:5:196".data [] [] (by decide) (by decide) (by decide)
    (by unfold noEsc; decide)
